import Mathlib

/-!
Verification of the ideas service: the language classifier, the JSON
response repairer, the structured-result parse step, the orchestrator's
commit and slug-collision policy, commit-message sanitization, and the
HTTP auth middleware.

The classifier, repairer, parse step and orchestrator policies are not
shipped in the source tree (only their tests are); they are modelled
from the specification, as marked on each definition.  The commit-message
sanitizer and the auth middleware are translated from the Go source.
-/

/-! ## Language classifier -/

/-- Modelled from the spec: `classify` counts Han ideograph code points.
The source file defining `detectLang` is absent from the tree (only
`TestDetectLang` is present); the spec prescribes counting Han ideographs. -/
def isHan (c : Char) : Bool :=
  decide ((0x4E00 ≤ c.toNat ∧ c.toNat ≤ 0x9FFF) ∨ (0x3400 ≤ c.toNat ∧ c.toNat ≤ 0x4DBF) ∨
    (0xF900 ≤ c.toNat ∧ c.toNat ≤ 0xFAFF) ∨ (0x20000 ≤ c.toNat ∧ c.toNat ≤ 0x2A6DF))

/-- Modelled from the spec: Latin letters `A`–`Z` (`0x41`–`0x5A`) and
`a`–`z` (`0x61`–`0x7A`). -/
def isLatinLetter (c : Char) : Bool :=
  decide ((0x41 ≤ c.toNat ∧ c.toNat ≤ 0x5A) ∨ (0x61 ≤ c.toNat ∧ c.toNat ≤ 0x7A))

/-- Modelled from the spec: one scan accumulating the Han count and the
Latin-letter count; every other character is ignored. -/
def langCounts : List Char → Nat × Nat
  | [] => (0, 0)
  | c :: cs =>
    let p := langCounts cs
    if isHan c then (p.1 + 1, p.2)
    else if isLatinLetter c then (p.1, p.2 + 1)
    else p

/-- Modelled from the spec: `detectLang` returns `zh` iff the Han count
strictly exceeds the Latin-letter count, else `en`.  The source file
defining it is absent from the tree; this follows §4.1 of the spec. -/
def detectLang (s : String) : String :=
  if (langCounts s.data).1 > (langCounts s.data).2 then "zh" else "en"

theorem langCounts_eq (l : List Char) :
    langCounts l = (l.countP isHan, l.countP isLatinLetter) := by
  induction l with
  | nil => simp [langCounts]
  | cons c cs ih =>
    simp only [langCounts, ih, List.countP_cons]
    by_cases h1 : isHan c
    · have h2 : isLatinLetter c = false := by
        revert h1
        simp only [isHan, isLatinLetter, decide_eq_true_eq]
        intro h1
        apply decide_eq_false
        push_neg
        rcases h1 with h | h | h | h <;> omega
      simp [h1, h2]
    · by_cases h2 : isLatinLetter c <;> simp [h1, h2]

theorem detectLang_insert_irrelevant (p q : List Char) (c : Char)
    (h1 : isHan c = false) (h2 : isLatinLetter c = false) :
    detectLang ⟨p ++ c :: q⟩ = detectLang ⟨p ++ q⟩ := by
  simp [detectLang, langCounts_eq, List.countP_append, List.countP_cons, h1, h2]

/-- C3: `detectLang` is a deterministic total function returning `zh` iff
the Han-ideograph count strictly exceeds the Latin-letter count and `en`
otherwise (so empty input and ties yield `en`), and characters that are
neither Han nor Latin letters never affect the outcome. -/
theorem detectLang_spec (s : String) :
    (detectLang s = "zh" ↔ s.data.countP isHan > s.data.countP isLatinLetter)
    ∧ (detectLang s = "zh" ∨ detectLang s = "en")
    ∧ detectLang "" = "en"
    ∧ (∀ (p q : List Char) (c : Char), isHan c = false → isLatinLetter c = false →
        detectLang ⟨p ++ c :: q⟩ = detectLang ⟨p ++ q⟩) := by
  refine ⟨?_, ?_, by decide, fun p q c h1 h2 => detectLang_insert_irrelevant p q c h1 h2⟩
  · unfold detectLang
    rw [langCounts_eq]
    by_cases h : s.data.countP isHan > s.data.countP isLatinLetter
    · rw [if_pos h]
      exact iff_of_true rfl h
    · rw [if_neg h]
      exact iff_of_false (by decide) h
  · unfold detectLang
    by_cases h : (langCounts s.data).1 > (langCounts s.data).2 <;> simp [h]

/-- C3 witness: concrete evaluations of `detectLang_spec`, with every
hypothesis discharged at the input `"ab中"` and the irrelevant char `'!'`. -/
theorem detectLang_spec_witness :
    (detectLang "ab中" = "zh" ↔ (("ab中").data.countP isHan > ("ab中").data.countP isLatinLetter))
    ∧ detectLang ⟨['a'] ++ '!' :: ['b']⟩ = detectLang ⟨['a'] ++ ['b']⟩ :=
  ⟨(detectLang_spec "ab中").1,
   (detectLang_spec "ab中").2.2.2 ['a'] ['b'] '!' (by decide) (by decide)⟩

/-! ## Response repairer -/

/-- Raw control characters the repairer escapes: newline, CR, tab. -/
def ctl (c : Char) : Bool :=
  c == '\n' || c == '\r' || c == '\t'

/-- Escape letter for a raw control character. -/
def escCode (c : Char) : Char :=
  if c == '\n' then 'n' else if c == '\r' then 'r' else 't'

theorem ctl_iff (c : Char) : ctl c = true ↔ c = '\n' ∨ c = '\r' ∨ c = '\t' := by
  simp [ctl, or_assoc]

theorem ctl_ne_backslash {c : Char} (h : ctl c = true) : c ≠ '\\' := by
  rcases (ctl_iff c).mp h with h' | h' | h' <;> (subst h'; decide)

theorem ctl_ne_quote {c : Char} (h : ctl c = true) : c ≠ '"' := by
  rcases (ctl_iff c).mp h with h' | h' | h' <;> (subst h'; decide)

/-- Modelled from the spec: the single left-to-right scan of `repairJSON`
with state `inString` and `afterBackslash` (§4.2); the source file that
defines `repairJSON` is absent from the tree, only `TestRepairJSON` is
present.  Rule order: after a backslash copy the character through; a
backslash is copied and sets the flag; a quote is copied and toggles
`inString`; an in-string raw newline/CR/tab becomes its two-character
escape; every other character is copied through. -/
def repairFrom : Bool → Bool → List Char → List Char
  | _, _, [] => []
  | inS, true, c :: cs => c :: repairFrom inS false cs
  | inS, false, c :: cs =>
    if c == '\\' then c :: repairFrom inS true cs
    else if c == '"' then c :: repairFrom (!inS) false cs
    else if inS && ctl c then '\\' :: escCode c :: repairFrom inS false cs
    else c :: repairFrom inS false cs

/-- Modelled from the spec: `repairJSON` runs the scan from the initial
state (outside any string, no pending backslash). -/
def repairJSON (s : String) : String :=
  ⟨repairFrom false false s.data⟩

theorem repairFrom_idem (s : List Char) :
    ∀ inS b, repairFrom inS b (repairFrom inS b s) = repairFrom inS b s := by
  induction s with
  | nil => intro inS b; cases b <;> simp [repairFrom]
  | cons c cs ih =>
    intro inS b
    cases b with
    | true => simp [repairFrom, ih]
    | false =>
      by_cases h1 : c = '\\'
      · subst h1
        simp [repairFrom, ih]
      · by_cases h2 : c = '"'
        · subst h2
          simp [repairFrom, ih]
        · by_cases h3 : inS = true ∧ ctl c = true
          · obtain ⟨hS, hc⟩ := h3
            subst hS
            simp only [repairFrom, beq_iff_eq, h1, h2, if_false, hc, Bool.true_and, if_true]
            simp [repairFrom, ih]
          · simp only [repairFrom, beq_iff_eq, h1, h2, if_false, Bool.and_eq_true, h3]
            simp [repairFrom, h1, h2, h3, ih]

/-- C2: the repairer is idempotent — repairing already-repaired text is
the identity, for every input string. -/
theorem repairJSON_idem (s : String) :
    repairJSON (repairJSON s) = repairJSON s :=
  congrArg String.mk (repairFrom_idem s.data false false)

/-- New `inString` state after one scanned character. -/
def stepInS (inS b : Bool) (c : Char) : Bool :=
  if b then inS else if c == '"' then !inS else inS

/-- New `afterBackslash` state after one scanned character. -/
def stepBS (_inS b : Bool) (c : Char) : Bool :=
  if b then false else c == '\\'

/-- Output the repairer emits for one character in a given state. -/
def emitAt (inS b : Bool) (c : Char) : List Char :=
  if b then [c]
  else if c == '\\' then [c]
  else if c == '"' then [c]
  else if inS && ctl c then ['\\', escCode c]
  else [c]

/-- States paired with characters along the scan. -/
def annotScan : Bool → Bool → List Char → List (Bool × Bool × Char)
  | _, _, [] => []
  | inS, b, c :: cs => (inS, b, c) :: annotScan (stepInS inS b c) (stepBS inS b c) cs

theorem repairFrom_eq_flatMap (s : List Char) :
    ∀ inS b, repairFrom inS b s
      = (annotScan inS b s).flatMap (fun t => emitAt t.1 t.2.1 t.2.2) := by
  induction s with
  | nil => intro inS b; cases b <;> simp [repairFrom, annotScan]
  | cons c cs ih =>
    intro inS b
    cases b with
    | true => simp [repairFrom, annotScan, emitAt, stepInS, stepBS, ih]
    | false =>
      by_cases h1 : c = '\\'
      · subst h1
        simp [repairFrom, annotScan, emitAt, stepInS, stepBS, ih]
      · by_cases h2 : c = '"'
        · subst h2
          simp [repairFrom, annotScan, emitAt, stepInS, stepBS, ih]
        · have hb1 : (c == '\\') = false := by simp [h1]
          have hb2 : (c == '"') = false := by simp [h2]
          by_cases h3 : inS = true ∧ ctl c = true
          · obtain ⟨hS, hc⟩ := h3
            subst hS
            simp [repairFrom, annotScan, emitAt, stepInS, stepBS, h1, h2, hb1, hb2, hc, ih]
          · simp [repairFrom, annotScan, emitAt, stepInS, stepBS, h1, h2, hb1, hb2, h3, ih]

/-- C4: the repairer's output is exactly the input scanned position by
position, where a position outside a string literal is always emitted
unchanged, and a position inside a string literal is either emitted
unchanged or — precisely when it holds a raw newline/CR/tab not preceded
by a backslash — replaced by its two-character escape.  Hence bytes
outside string literals (braces, commas, colons, whitespace between
tokens) are untouched and keep their relative order. -/
theorem repairJSON_frame (s : String) :
    (repairJSON s).data
      = (annotScan false false s.data).flatMap (fun t => emitAt t.1 t.2.1 t.2.2)
    ∧ (∀ (b : Bool) (c : Char), emitAt false b c = [c])
    ∧ (∀ (b : Bool) (c : Char),
        emitAt true b c = (if b = false ∧ ctl c = true then ['\\', escCode c] else [c])) := by
  refine ⟨repairFrom_eq_flatMap s.data false false, ?_, ?_⟩
  · intro b c
    cases b with
    | true => simp [emitAt]
    | false =>
      by_cases h1 : c = '\\'
      · subst h1; simp [emitAt]
      · by_cases h2 : c = '"'
        · subst h2; simp [emitAt]
        · simp [emitAt, h1, h2]
  · intro b c
    cases b with
    | true => simp [emitAt]
    | false =>
      by_cases h3 : ctl c = true
      · have h1 := ctl_ne_backslash h3
        have h2 := ctl_ne_quote h3
        simp [emitAt, h1, h2, h3]
      · by_cases h1 : c = '\\'
        · subst h1; simp [emitAt, h3]
        · by_cases h2 : c = '"'
          · subst h2; simp [emitAt, h3]
          · simp [emitAt, h1, h2, h3]

/-- C5: in the repairer's scan, the character immediately after an
unescaped backslash is copied through unchanged with both state flags
cleared of the backslash (so already-valid escapes are never reprocessed
or double-escaped), the `inString` state is never changed by that
character, and an escaped quote `\"` is copied through with `inString`
left exactly as it was — it never toggles the in-string state. -/
theorem repairJSON_escape_protection :
    (∀ (inS : Bool) (c : Char) (cs : List Char),
        repairFrom inS true (c :: cs) = c :: repairFrom inS false cs
        ∧ stepInS inS true c = inS ∧ stepBS inS true c = false)
    ∧ (∀ (inS : Bool) (cs : List Char),
        repairFrom inS false ('\\' :: '"' :: cs) = '\\' :: '"' :: repairFrom inS false cs
        ∧ stepInS (stepInS inS false '\\') (stepBS inS false '\\') '"' = inS) := by
  constructor
  · intro inS c cs
    exact ⟨by simp [repairFrom], by simp [stepInS], by simp [stepBS]⟩
  · intro inS cs
    constructor
    · simp [repairFrom]
    · simp [stepInS, stepBS]

/-! ## JSON values and a strict parser

Modelled from the spec: the pipeline treats the repaired text with a
strict JSON parse (`json.Unmarshal`); the Go file invoking it is absent
from the tree.  Strings reject raw control characters below `0x20`, as
the strict parser does; numbers are kept as their lexeme. -/

/-- JSON values; number values keep their lexeme, which is all the
pipeline ever inspects. -/
inductive JVal where
  | null : JVal
  | bool : Bool → JVal
  | num : List Char → JVal
  | str : List Char → JVal
  | arr : List JVal → JVal
  | obj : List (List Char × JVal) → JVal
  deriving BEq

/-- JSON inter-token whitespace. -/
def isWs (c : Char) : Bool :=
  c == ' ' || c == '\n' || c == '\r' || c == '\t'

/-- Skip inter-token whitespace. -/
def skipWs (l : List Char) : List Char :=
  l.dropWhile isWs

/-- Resolve a single-character escape inside a string literal. -/
def unescape (e : Char) : Option Char :=
  if e == '"' then some '"'
  else if e == '\\' then some '\\'
  else if e == '/' then some '/'
  else if e == 'b' then some (Char.ofNat 8)
  else if e == 'f' then some (Char.ofNat 12)
  else if e == 'n' then some '\n'
  else if e == 'r' then some '\r'
  else if e == 't' then some '\t'
  else none

/-- Value of a hex digit. -/
def hexVal (c : Char) : Option Nat :=
  if 0x30 ≤ c.toNat ∧ c.toNat ≤ 0x39 then some (c.toNat - 0x30)
  else if 0x61 ≤ c.toNat ∧ c.toNat ≤ 0x66 then some (c.toNat - 87)
  else if 0x41 ≤ c.toNat ∧ c.toNat ≤ 0x46 then some (c.toNat - 55)
  else none

/-- Parse the body of a string literal after its opening quote; raw
control characters below `0x20` are rejected, escapes are resolved.
Returns the decoded content and the input after the closing quote. -/
def parseStringBody : Nat → List Char → Option (List Char × List Char)
  | 0, _ => none
  | _ + 1, [] => none
  | fuel + 1, c :: cs =>
    if c == '"' then some ([], cs)
    else if c == '\\' then
      match cs with
      | [] => none
      | e :: cs' =>
        if e == 'u' then
          match cs' with
          | h1 :: h2 :: h3 :: h4 :: cs'' =>
            match hexVal h1, hexVal h2, hexVal h3, hexVal h4 with
            | some x1, some x2, some x3, some x4 =>
              let n := ((x1 * 16 + x2) * 16 + x3) * 16 + x4
              if n < 0xD800 ∨ 0xDFFF < n then
                match parseStringBody fuel cs'' with
                | some (s, r) => some (Char.ofNat n :: s, r)
                | none => none
              else none
            | _, _, _, _ => none
          | _ => none
        else
          match unescape e with
          | some ch =>
            match parseStringBody fuel cs' with
            | some (s, r) => some (ch :: s, r)
            | none => none
          | none => none
    else if c.toNat < 0x20 then none
    else
      match parseStringBody fuel cs with
      | some (s, r) => some (c :: s, r)
      | none => none

/-- Characters a number lexeme may contain. -/
def numChar (c : Char) : Bool :=
  (0x30 ≤ c.toNat && c.toNat ≤ 0x39) || c == '-' || c == '+' || c == '.' || c == 'e' || c == 'E'

/-- Lex a number token. -/
def parseNumber (input : List Char) : Option (JVal × List Char) :=
  let lex := input.takeWhile numChar
  if lex.isEmpty then none else some (JVal.num lex, input.drop lex.length)

mutual

/-- Parse one JSON value and return the remaining input. -/
def parseValue : Nat → List Char → Option (JVal × List Char)
  | 0, _ => none
  | fuel + 1, input =>
    match skipWs input with
    | [] => none
    | c :: cs =>
      if c == '{' then
        match skipWs cs with
        | '}' :: rest => some (JVal.obj [], rest)
        | cs2 =>
          match parseMembers fuel cs2 with
          | some (ms, rest) => some (JVal.obj ms, rest)
          | none => none
      else if c == '[' then
        match skipWs cs with
        | ']' :: rest => some (JVal.arr [], rest)
        | cs2 =>
          match parseElems fuel cs2 with
          | some (xs, rest) => some (JVal.arr xs, rest)
          | none => none
      else if c == '"' then
        match parseStringBody fuel cs with
        | some (s, rest) => some (JVal.str s, rest)
        | none => none
      else if c == 't' then
        if cs.take 3 = ['r', 'u', 'e'] then some (JVal.bool true, cs.drop 3) else none
      else if c == 'f' then
        if cs.take 4 = ['a', 'l', 's', 'e'] then some (JVal.bool false, cs.drop 4) else none
      else if c == 'n' then
        if cs.take 3 = ['u', 'l', 'l'] then some (JVal.null, cs.drop 3) else none
      else parseNumber (c :: cs)

/-- Parse the members of an object after its opening brace, for a
non-empty member list; consumes through the closing brace. -/
def parseMembers : Nat → List Char → Option (List (List Char × JVal) × List Char)
  | 0, _ => none
  | fuel + 1, input =>
    match skipWs input with
    | '"' :: cs =>
      match parseStringBody fuel cs with
      | some (k, r1) =>
        (match skipWs r1 with
         | ':' :: r2 =>
           (match parseValue fuel r2 with
            | some (v, r3) =>
              (match skipWs r3 with
               | ',' :: r4 =>
                 (match parseMembers fuel r4 with
                  | some (ms, r5) => some ((k, v) :: ms, r5)
                  | none => none)
               | '}' :: r4 => some ([(k, v)], r4)
               | _ => none)
            | none => none)
         | _ => none)
      | none => none
    | _ => none

/-- Parse the elements of an array after its opening bracket, for a
non-empty element list; consumes through the closing bracket. -/
def parseElems : Nat → List Char → Option (List JVal × List Char)
  | 0, _ => none
  | fuel + 1, input =>
    match parseValue fuel input with
    | some (v, r1) =>
      (match skipWs r1 with
       | ',' :: r2 =>
         (match parseElems fuel r2 with
          | some (xs, r3) => some (v :: xs, r3)
          | none => none)
       | ']' :: r2 => some ([v], r2)
       | _ => none)
    | none => none

end

/-- Parse a complete JSON document: one value with only whitespace
after it. -/
def parseJSON (l : List Char) : Option JVal :=
  match parseValue (l.length + 1) l with
  | some (v, rest) => if skipWs rest = [] then some v else none
  | none => none

/-! ## Serialization of a flat string object, with and without defects

`serializeRaw` renders a JSON object whose string literals are properly
escaped except that raw newline/CR/tab characters are emitted as raw
bytes — exactly the defect class the repairer is specified to fix.
`serializeEsc` renders the same object fully escaped. -/

/-- Literal body with quote and backslash escaped but newline/CR/tab
emitted raw (the defective rendering). -/
def rawBody : List Char → List Char
  | [] => []
  | c :: cs => if c == '"' || c == '\\' then '\\' :: c :: rawBody cs else c :: rawBody cs

/-- Literal body with quote, backslash and newline/CR/tab all escaped
(the correct rendering). -/
def escBody : List Char → List Char
  | [] => []
  | c :: cs =>
    if c == '"' || c == '\\' then '\\' :: c :: escBody cs
    else if ctl c then '\\' :: escCode c :: escBody cs
    else c :: escBody cs

/-- Members of the defective rendering, without the braces. -/
def serFieldsRaw : List (List Char × List Char) → List Char
  | [] => []
  | (k, v) :: tl =>
    '"' :: (rawBody k ++ '"' :: ':' :: '"' :: (rawBody v ++ '"' ::
      (if tl.isEmpty then [] else ',' :: serFieldsRaw tl)))

/-- Members of the correct rendering, without the braces. -/
def serFieldsEsc : List (List Char × List Char) → List Char
  | [] => []
  | (k, v) :: tl =>
    '"' :: (escBody k ++ '"' :: ':' :: '"' :: (escBody v ++ '"' ::
      (if tl.isEmpty then [] else ',' :: serFieldsEsc tl)))

/-- Defective rendering of a flat string-valued object. -/
def serializeRaw (o : List (List Char × List Char)) : List Char :=
  '{' :: (serFieldsRaw o ++ ['}'])

/-- Correct rendering of a flat string-valued object. -/
def serializeEsc (o : List (List Char × List Char)) : List Char :=
  '{' :: (serFieldsEsc o ++ ['}'])

theorem repairFrom_rawBody (s : List Char) : ∀ rest,
    repairFrom true false (rawBody s ++ rest) = escBody s ++ repairFrom true false rest := by
  induction s with
  | nil => intro rest; simp [rawBody, escBody]
  | cons c cs ih =>
    intro rest
    by_cases h1 : c = '"' ∨ c = '\\'
    · rcases h1 with h | h <;> subst h <;>
        simp [rawBody, escBody, repairFrom, ih]
    · push_neg at h1
      obtain ⟨hq, hb⟩ := h1
      by_cases h2 : ctl c = true
      · simp [rawBody, escBody, repairFrom, hq, hb, h2, ih]
      · simp [rawBody, escBody, repairFrom, hq, hb, h2, ih]

theorem repairFrom_serFields (o : List (List Char × List Char)) : ∀ rest,
    repairFrom false false (serFieldsRaw o ++ rest)
      = serFieldsEsc o ++ repairFrom false false rest := by
  induction o with
  | nil => intro rest; simp [serFieldsRaw, serFieldsEsc]
  | cons kv tl ih =>
    obtain ⟨k, v⟩ := kv
    intro rest
    cases tl with
    | nil =>
      simp [serFieldsRaw, serFieldsEsc, repairFrom, repairFrom_rawBody]
    | cons kv2 tl2 =>
      have hemp : (kv2 :: tl2).isEmpty = false := rfl
      rw [serFieldsRaw, serFieldsEsc]
      generalize htl : kv2 :: tl2 = tl' at ih hemp ⊢
      simp only [hemp, Bool.false_eq_true, if_false]
      simp [repairFrom, repairFrom_rawBody, ih]

/-- Repairing the defective rendering produces exactly the correct
rendering. -/
theorem repairFrom_serialize (o : List (List Char × List Char)) :
    repairFrom false false (serializeRaw o) = serializeEsc o := by
  have h1 : repairFrom false false ['}'] = ['}'] := by simp [repairFrom]
  simp [serializeRaw, serializeEsc, repairFrom, repairFrom_serFields, h1]

/-! ## Parsing the repaired rendering -/

/-- A character a defective string value may contain: printable, or one
of the three raw control characters the repairer fixes. -/
def goodChar (c : Char) : Bool :=
  decide (0x20 ≤ c.toNat) || ctl c

/-- All characters of the string are within the tolerated defect class. -/
def goodStr (s : List Char) : Bool :=
  s.all goodChar

/-- All keys and values of the object are within the defect class. -/
def goodObj (o : List (List Char × List Char)) : Bool :=
  o.all fun kv => goodStr kv.1 && goodStr kv.2

theorem parseStringBody_escBody (s : List Char) :
    ∀ f rest, goodStr s = true →
      parseStringBody (s.length + f + 1) (escBody s ++ '"' :: rest) = some (s, rest) := by
  induction s with
  | nil =>
    intro f rest _
    simp [escBody, parseStringBody]
  | cons c cs ih =>
    intro f rest hg
    have hgc : goodChar c = true := by
      have := hg
      simp [goodStr, List.all_cons] at this
      exact this.1
    have hgs : goodStr cs = true := by
      have := hg
      simp [goodStr, List.all_cons] at this
      simp [goodStr]
      exact this.2
    have hlen : (c :: cs).length + f + 1 = (cs.length + f + 1) + 1 := by
      simp only [List.length_cons]
      omega
    rw [hlen]
    by_cases h1 : c = '"' ∨ c = '\\'
    · rcases h1 with h | h <;> subst h <;>
        simp [escBody, parseStringBody, unescape, ih f rest hgs]
    · push_neg at h1
      obtain ⟨hq, hb⟩ := h1
      by_cases h2 : ctl c = true
      · rcases (ctl_iff c).mp h2 with h | h | h <;> subst h <;>
          simp [escBody, escCode, parseStringBody, unescape, ih f rest hgs]
      · have hge : ¬(c.toNat < 0x20) := by
          revert hgc
          simp only [goodChar, Bool.not_eq_true] at h2 ⊢
          simp only [h2, Bool.or_false, decide_eq_true_eq]
          omega
        simp [escBody, hq, hb, h2, parseStringBody, hge, ih f rest hgs]

theorem skipWs_quote (l : List Char) : skipWs ('"' :: l) = '"' :: l := by
  simp [skipWs, List.dropWhile_cons, isWs]

theorem skipWs_colon (l : List Char) : skipWs (':' :: l) = ':' :: l := by
  simp [skipWs, List.dropWhile_cons, isWs]

theorem skipWs_comma (l : List Char) : skipWs (',' :: l) = ',' :: l := by
  simp [skipWs, List.dropWhile_cons, isWs]

theorem skipWs_rbrace (l : List Char) : skipWs ('}' :: l) = '}' :: l := by
  simp [skipWs, List.dropWhile_cons, isWs]

theorem skipWs_lbrace (l : List Char) : skipWs ('{' :: l) = '{' :: l := by
  simp [skipWs, List.dropWhile_cons, isWs]

theorem parseValue_str (v : List Char) (f : Nat) (rest : List Char) (hv : goodStr v = true) :
    parseValue (v.length + f + 2) ('"' :: (escBody v ++ '"' :: rest))
      = some (JVal.str v, rest) := by
  have hlen : v.length + f + 2 = (v.length + f + 1) + 1 := by omega
  rw [hlen]
  simp [parseValue, skipWs_quote, parseStringBody_escBody v f rest hv]

/-- Fuel sufficient to parse the members of the object. -/
def memFuel : List (List Char × List Char) → Nat
  | [] => 1
  | (k, v) :: tl => k.length + v.length + 5 + memFuel tl

theorem escBody_length (s : List Char) : s.length ≤ (escBody s).length := by
  induction s with
  | nil => simp [escBody]
  | cons c cs ih =>
    by_cases h1 : c = '"' ∨ c = '\\'
    · rcases h1 with h | h <;> subst h <;> (simp [escBody]; omega)
    · push_neg at h1
      obtain ⟨hq, hb⟩ := h1
      by_cases h2 : ctl c = true <;> (simp [escBody, hq, hb, h2]; omega)

theorem memFuel_le (o : List (List Char × List Char)) :
    memFuel o ≤ (serFieldsEsc o).length + 2 := by
  induction o with
  | nil => simp [memFuel, serFieldsEsc]
  | cons kv tl ih =>
    obtain ⟨k, v⟩ := kv
    have hk := escBody_length k
    have hv := escBody_length v
    have hm : memFuel ((k, v) :: tl) = k.length + v.length + 5 + memFuel tl := rfl
    cases tl with
    | nil =>
      rw [hm]
      simp [serFieldsEsc, memFuel, List.length_append]
      omega
    | cons kv2 tl2 =>
      rw [hm, serFieldsEsc]
      have hemp : (kv2 :: tl2).isEmpty = false := rfl
      generalize kv2 :: tl2 = tl' at ih hemp ⊢
      simp only [hemp, Bool.false_eq_true, if_false]
      simp only [List.length_cons, List.length_append]
      omega

theorem parseMembers_ser (o : List (List Char × List Char)) :
    ∀ fuel rest, goodObj o = true → o ≠ [] → memFuel o ≤ fuel →
      parseMembers fuel (serFieldsEsc o ++ '}' :: rest)
        = some (o.map fun kv => (kv.1, JVal.str kv.2), rest) := by
  induction o with
  | nil => intro fuel rest _ hne _; exact absurd rfl hne
  | cons kv tl ih =>
    obtain ⟨k, v⟩ := kv
    intro fuel rest hg _ hfuel
    have hgk : goodStr k = true := by
      have := hg
      simp [goodObj, List.all_cons] at this
      exact this.1.1
    have hgv : goodStr v = true := by
      have := hg
      simp [goodObj, List.all_cons] at this
      exact this.1.2
    have hgt : goodObj tl = true := by
      have := hg
      simp [goodObj, List.all_cons] at this
      simp [goodObj]
      intro a b hab
      exact this.2 a b hab
    have h5 : memFuel ((k, v) :: tl) = k.length + v.length + 5 + memFuel tl := rfl
    have hm1 : 1 ≤ memFuel tl := by
      cases tl with
      | nil => simp [memFuel]
      | cons kv2 tl2 =>
        obtain ⟨k2, v2⟩ := kv2
        have : memFuel ((k2, v2) :: tl2) = k2.length + v2.length + 5 + memFuel tl2 := rfl
        omega
    obtain ⟨g, rfl⟩ : ∃ g, fuel = g + 1 := ⟨fuel - 1, by omega⟩
    cases tl with
    | nil =>
      have hserEq : serFieldsEsc [(k, v)] ++ '}' :: rest
          = '"' :: (escBody k ++ '"' :: (':' :: ('"' :: (escBody v ++ '"' :: ('}' :: rest))))) := by
        simp [serFieldsEsc]
      rw [hserEq]
      have hk : parseStringBody g
          (escBody k ++ '"' :: (':' :: ('"' :: (escBody v ++ '"' :: ('}' :: rest)))))
          = some (k, ':' :: ('"' :: (escBody v ++ '"' :: ('}' :: rest)))) := by
        have hgeq : g = k.length + (g - k.length - 1) + 1 := by omega
        rw [hgeq]
        exact parseStringBody_escBody k (g - k.length - 1) _ hgk
      have hv2 : parseValue g ('"' :: (escBody v ++ '"' :: ('}' :: rest)))
          = some (JVal.str v, '}' :: rest) := by
        have hgeq : g = v.length + (g - v.length - 2) + 2 := by omega
        rw [hgeq]
        exact parseValue_str v (g - v.length - 2) _ hgv
      simp [parseMembers, skipWs_quote, skipWs_colon, skipWs_rbrace, hk, hv2]
    | cons kv2 tl2 =>
      have hne' : kv2 :: tl2 ≠ [] := by simp
      have hemp : (kv2 :: tl2).isEmpty = false := rfl
      generalize htl : kv2 :: tl2 = tl' at ih hgt hfuel h5 hm1 hne' hemp ⊢
      have hserEq : serFieldsEsc ((k, v) :: tl') ++ '}' :: rest
          = '"' :: (escBody k ++ '"' :: (':' :: ('"' :: (escBody v ++ '"' ::
              (',' :: (serFieldsEsc tl' ++ '}' :: rest)))))) := by
        rw [serFieldsEsc]
        simp [hemp]
      rw [hserEq]
      have hk : parseStringBody g
          (escBody k ++ '"' :: (':' :: ('"' :: (escBody v ++ '"' ::
            (',' :: (serFieldsEsc tl' ++ '}' :: rest))))))
          = some (k, ':' :: ('"' :: (escBody v ++ '"' ::
            (',' :: (serFieldsEsc tl' ++ '}' :: rest))))) := by
        have hgeq : g = k.length + (g - k.length - 1) + 1 := by omega
        rw [hgeq]
        exact parseStringBody_escBody k (g - k.length - 1) _ hgk
      have hv2 : parseValue g ('"' :: (escBody v ++ '"' ::
            (',' :: (serFieldsEsc tl' ++ '}' :: rest))))
          = some (JVal.str v, ',' :: (serFieldsEsc tl' ++ '}' :: rest)) := by
        have hgeq : g = v.length + (g - v.length - 2) + 2 := by omega
        rw [hgeq]
        exact parseValue_str v (g - v.length - 2) _ hgv
      have hmem : parseMembers g (serFieldsEsc tl' ++ '}' :: rest)
          = some (tl'.map fun kv => (kv.1, JVal.str kv.2), rest) :=
        ih g rest hgt hne' (by omega)
      simp [parseMembers, skipWs_quote, skipWs_colon, skipWs_comma, hk, hv2, hmem]

/-- Parsing the correct rendering yields exactly the object. -/
theorem parseJSON_serializeEsc (o : List (List Char × List Char)) (h : goodObj o = true) :
    parseJSON (serializeEsc o) = some (JVal.obj (o.map fun kv => (kv.1, JVal.str kv.2))) := by
  cases o with
  | nil => rfl
  | cons kv tl =>
    obtain ⟨k, v⟩ := kv
    have hhead : ∃ T, serFieldsEsc ((k, v) :: tl) = '"' :: T := by
      rw [serFieldsEsc]
      exact ⟨_, rfl⟩
    obtain ⟨T, hT⟩ := hhead
    have hser : serializeEsc ((k, v) :: tl) = '{' :: ('"' :: (T ++ ['}'])) := by
      rw [serializeEsc, hT]
      simp
    have hm : parseMembers (T.length + 3) (('"' :: T) ++ '}' :: ([] : List Char))
        = some (((k, v) :: tl).map fun kv => (kv.1, JVal.str kv.2), []) := by
      rw [← hT]
      apply parseMembers_ser ((k, v) :: tl) (T.length + 3) [] h (by simp)
      have h1 := memFuel_le ((k, v) :: tl)
      rw [hT] at h1
      simp only [List.length_cons] at h1
      omega
    rw [hser]
    unfold parseJSON
    have hL : ('{' :: ('"' :: (T ++ ['}']))).length + 1 = (T.length + 3) + 1 := by
      simp [List.length_cons, List.length_append]
    rw [hL]
    simp only [List.cons_append] at hm
    have hnil : skipWs ([] : List Char) = [] := rfl
    simp [parseValue, skipWs_lbrace, skipWs_quote, hm, hnil]

/-- C1: for every flat string-valued JSON object whose only defects are
raw newline/CR/tab characters at arbitrary positions inside its string
literals (no other control characters), parsing the repaired rendering
succeeds and recovers exactly the original logical field values,
including the raw control characters. -/
theorem repairJSON_parse_roundtrip (o : List (List Char × List Char))
    (h : goodObj o = true) :
    parseJSON (repairJSON ⟨serializeRaw o⟩).data
      = some (JVal.obj (o.map fun kv => (kv.1, JVal.str kv.2))) := by
  have h1 : (repairJSON ⟨serializeRaw o⟩).data = repairFrom false false (serializeRaw o) := rfl
  rw [h1, repairFrom_serialize]
  exact parseJSON_serializeEsc o h

/-- C1 witness: a concrete object carrying raw newline, tab and CR
defects round-trips through repair and parse. -/
theorem repairJSON_parse_roundtrip_witness :
    goodObj [(("lang").data, ("en").data),
             (("polished_content").data, ("Line one.\n\nLine two.\tend\r").data)] = true
    ∧ parseJSON (repairJSON ⟨serializeRaw
        [(("lang").data, ("en").data),
         (("polished_content").data, ("Line one.\n\nLine two.\tend\r").data)]⟩).data
      = some (JVal.obj ([(("lang").data, ("en").data),
         (("polished_content").data, ("Line one.\n\nLine two.\tend\r").data)].map
           fun kv => (kv.1, JVal.str kv.2))) :=
  ⟨by decide, repairJSON_parse_roundtrip _ (by decide)⟩

/-! ## Structured result model (parse step) -/

/-- The structured result of one polish/translate cycle, with the five
required fields of the LLM reply. -/
structure translateResult where
  lang : List Char
  polishedTitle : List Char
  polishedContent : List Char
  translatedTitle : List Char
  translatedContent : List Char

/-- Look a key up among the members of a JSON object. -/
def lookupField : List (List Char × JVal) → List Char → Option JVal
  | [], _ => none
  | (k, v) :: tl, key => if k = key then some v else lookupField tl key

/-- Keep only string-valued results. -/
def asStr : Option JVal → Option (List Char)
  | some (JVal.str s) => some s
  | _ => none

/-- Modelled from the spec: the parse step of §4.3 applied to the
repairer's output — it fails (the `MalformedResponse` condition, here
`none`) if the JSON fails to parse, the document is not an object, or
any of the five required fields is absent or not a string; the Go file
performing it is absent from the tree. -/
def parseTranslateResult (l : List Char) : Option translateResult :=
  (parseJSON l).bind fun v =>
    match v with
    | JVal.obj fs =>
      (asStr (lookupField fs ("lang").data)).bind fun l1 =>
      (asStr (lookupField fs ("polished_title").data)).bind fun pt =>
      (asStr (lookupField fs ("polished_content").data)).bind fun pc =>
      (asStr (lookupField fs ("translated_title").data)).bind fun tt =>
      (asStr (lookupField fs ("translated_content").data)).map fun tc =>
        ⟨l1, pt, pc, tt, tc⟩
    | _ => none

/-- C6: the parse step is all-or-nothing — it yields a structured result
exactly when the repaired text parses as a JSON object carrying all five
required fields as strings, and then every field of the result is the
corresponding member of that object; whenever the text is not valid JSON
or a required field is absent or not a string, it fails outright, never
yielding a partially populated result. -/
theorem parseTranslateResult_all_or_nothing (l : List Char) (r : translateResult) :
    parseTranslateResult l = some r ↔
      ∃ fs, parseJSON l = some (JVal.obj fs)
        ∧ asStr (lookupField fs ("lang").data) = some r.lang
        ∧ asStr (lookupField fs ("polished_title").data) = some r.polishedTitle
        ∧ asStr (lookupField fs ("polished_content").data) = some r.polishedContent
        ∧ asStr (lookupField fs ("translated_title").data) = some r.translatedTitle
        ∧ asStr (lookupField fs ("translated_content").data) = some r.translatedContent := by
  constructor
  · intro h
    simp only [parseTranslateResult, Option.bind_eq_some] at h
    obtain ⟨v, hv, h⟩ := h
    cases v with
    | obj fs =>
      simp only [Option.bind_eq_some, Option.map_eq_some'] at h
      obtain ⟨l1, h1, pt, h2, pc, h3, tt, h4, tc, h5, hr⟩ := h
      subst hr
      exact ⟨fs, hv, h1, h2, h3, h4, h5⟩
    | null => exact Option.noConfusion h
    | bool b => exact Option.noConfusion h
    | num n => exact Option.noConfusion h
    | str s => exact Option.noConfusion h
    | arr xs => exact Option.noConfusion h
  · rintro ⟨fs, hv, h1, h2, h3, h4, h5⟩
    unfold parseTranslateResult
    rw [hv]
    simp only [Option.some_bind, h1, h2, h3, h4, h5, Option.map_some']

/-! ## Orchestrator commit policy -/

/-- The two language tags of the bilingual pipeline. -/
inductive LanguageTag where
  | en : LanguageTag
  | zh : LanguageTag
  deriving DecidableEq

/-- Outcome of one write against the append-only content store: the Go
client treats HTTP 201 as success and any other status (including the
conflict returned when the path already exists) as failure. -/
inductive WriteOutcome where
  | created : WriteOutcome
  | conflict : WriteOutcome
  | failed : WriteOutcome
  deriving DecidableEq

/-- Result the orchestrator reports for the two-document commit. -/
inductive CommitResult where
  | success : CommitResult
  | partialCommit : LanguageTag → CommitResult
  | totalFailure : CommitResult
  deriving DecidableEq

/-- Modelled from the spec: committing the two assembled documents in
sequence (§4.4) — the native-language document first; if its write fails
nothing was committed (total failure); if it succeeds and the second
write fails, the caller is told which language is committed.  The Go
orchestrator performing this is absent from the tree. -/
def commitBoth (native : LanguageTag) (first second : WriteOutcome) : CommitResult :=
  match first with
  | WriteOutcome.created =>
    match second with
    | WriteOutcome.created => CommitResult.success
    | _ => CommitResult.partialCommit native
  | _ => CommitResult.totalFailure

/-- C7: when the first write succeeds and the second fails, the caller
receives a partial-commit failure naming the committed language — an
outcome distinct from generic success and from generic total failure,
and one from which the committed language is recoverable. -/
theorem commitBoth_partial_outcome (native : LanguageTag) (second : WriteOutcome)
    (h : second ≠ WriteOutcome.created) :
    commitBoth native WriteOutcome.created second = CommitResult.partialCommit native
    ∧ CommitResult.partialCommit native ≠ CommitResult.success
    ∧ CommitResult.partialCommit native ≠ CommitResult.totalFailure
    ∧ (∀ n2, CommitResult.partialCommit native = CommitResult.partialCommit n2 → native = n2) := by
  refine ⟨?_, by simp, by simp, fun n2 he => by injection he⟩
  cases second with
  | created => exact absurd rfl h
  | conflict => rfl
  | failed => rfl

/-- C7 witness: the partial-commit outcome at a concrete failed second
write. -/
theorem commitBoth_partial_outcome_witness :
    commitBoth LanguageTag.en WriteOutcome.created WriteOutcome.failed
      = CommitResult.partialCommit LanguageTag.en
    ∧ CommitResult.partialCommit LanguageTag.en ≠ CommitResult.success :=
  ⟨(commitBoth_partial_outcome LanguageTag.en WriteOutcome.failed (by decide)).1,
   (commitBoth_partial_outcome LanguageTag.en WriteOutcome.failed (by decide)).2.1⟩

/-! ## Slug collision policy -/

/-- Paths already present in the target content directory. -/
abbrev Store : Type := List String

/-- The write API of the content store: creating an existing path
reports a conflict and leaves the store unchanged; otherwise the file is
created. -/
def createPath (st : Store) (p : String) : Store × WriteOutcome :=
  if p ∈ st then (st, WriteOutcome.conflict)
  else (List.cons p st, WriteOutcome.created)

/-- The n-th disambiguated variant of a slug. -/
def slugVariant (slug : String) (n : Nat) : String :=
  if n = 0 then slug else slug ++ "-" ++ toString n

/-- Modelled from the spec: on a conflict (the path already holds the
slug) the orchestrator regenerates the slug with a disambiguating
suffix instead of failing (§4.4); the Go orchestrator performing this is
absent from the tree. -/
def commitSlug : Nat → Store → String → Nat → Option (Store × String)
  | 0, _, _, _ => none
  | fuel + 1, st, slug, n =>
    let r := createPath st (slugVariant slug n)
    match r.2 with
    | WriteOutcome.created => some (r.1, slugVariant slug n)
    | WriteOutcome.conflict => commitSlug fuel st slug (n + 1)
    | WriteOutcome.failed => none

/-- Persist one idea under a derived slug, retrying suffixes on
collision. -/
def persistIdea (st : Store) (slug : String) : Option (Store × String) :=
  commitSlug (st.length + 1) st slug 0

theorem commitSlug_fresh :
    ∀ fuel st slug n st' s, commitSlug fuel st slug n = some (st', s) →
      s ∉ st ∧ st' = List.cons s st := by
  intro fuel
  induction fuel with
  | zero => intro st slug n st' s h; exact Option.noConfusion h
  | succ f ih =>
    intro st slug n st' s h
    rw [commitSlug] at h
    by_cases hm : slugVariant slug n ∈ st
    · simp only [createPath, hm, if_pos, if_true] at h
      exact ih st slug (n + 1) st' s h
    · simp only [createPath, hm, if_neg, if_false] at h
      simp only [Option.some.injEq, Prod.mk.injEq] at h
      obtain ⟨h1, h2⟩ := h
      constructor
      · rw [← h2]; exact hm
      · rw [← h1, ← h2]
  


/-- C8: two submissions that derive the same slug are persisted under
two distinct slugs, neither overwriting the other — the first stays in
the store, the second lands beside it under a disambiguated name, and
nothing else changes. -/
theorem persistIdea_collision (st : Store) (slug : String)
    (st1 st2 : Store) (s1 s2 : String)
    (h1 : persistIdea st slug = some (st1, s1))
    (h2 : persistIdea st1 slug = some (st2, s2)) :
    s1 ≠ s2 ∧ s1 ∈ st2 ∧ s2 ∈ st2 ∧ st2 = List.cons s2 st1 := by
  obtain ⟨hn1, he1⟩ := commitSlug_fresh (st.length + 1) st slug 0 st1 s1 h1
  obtain ⟨hn2, he2⟩ := commitSlug_fresh (st1.length + 1) st1 slug 0 st2 s2 h2
  have hs1 : s1 ∈ st1 := by rw [he1]; exact List.mem_cons_self s1 st
  refine ⟨?_, ?_, ?_, he2⟩
  · intro he
    rw [he] at hs1
    exact hn2 hs1
  · rw [he2]
    exact List.mem_cons_of_mem s2 hs1
  · rw [he2]
    exact List.mem_cons_self s2 st1

/-- C8 witness: a concrete collision — the second submission retries the
taken slug and is persisted as `idea-1` beside `idea`. -/
theorem persistIdea_collision_witness :
    persistIdea [] "idea" = some (["idea"], "idea")
    ∧ persistIdea ["idea"] "idea" = some (["idea-1", "idea"], "idea-1")
    ∧ ("idea" ≠ "idea-1" ∧ "idea" ∈ (["idea-1", "idea"] : Store)
       ∧ "idea-1" ∈ (["idea-1", "idea"] : Store)
       ∧ (["idea-1", "idea"] : Store) = List.cons "idea-1" ["idea"]) :=
  ⟨by decide, by decide,
   persistIdea_collision [] "idea" ["idea"] ["idea-1", "idea"] "idea" "idea-1"
     (by decide) (by decide)⟩

/-! ## Commit message sanitization

Translated from the Go source `sanitizeCommitMsg`: every rune for which
`unicode.IsControl` holds is removed, the result is trimmed with
`strings.TrimSpace`, and if its UTF-8 byte length exceeds 200 it is cut
at byte index 200, which may split a multi-byte rune. -/

/-- The runes Go's `unicode.IsControl` reports: the Latin-1 property
table marks `0x00`–`0x1F`, `0x7F`–`0x9F` and the soft hyphen `0xAD`
with `pC`; every rune above `0xFF` reports false. -/
def goIsControl (c : Char) : Bool :=
  decide (c.toNat ≤ 0xFF ∧ (c.toNat < 0x20 ∨ c.toNat = 0x7F
    ∨ (0x80 ≤ c.toNat ∧ c.toNat ≤ 0x9F) ∨ c.toNat = 0xAD))

/-- The runes Go's `unicode.IsSpace` reports (the White_Space set). -/
def goIsSpace (c : Char) : Bool :=
  decide (c.toNat = 0x9 ∨ c.toNat = 0xA ∨ c.toNat = 0xB ∨ c.toNat = 0xC ∨ c.toNat = 0xD
    ∨ c.toNat = 0x20 ∨ c.toNat = 0x85 ∨ c.toNat = 0xA0 ∨ c.toNat = 0x1680
    ∨ (0x2000 ≤ c.toNat ∧ c.toNat ≤ 0x200A) ∨ c.toNat = 0x2028 ∨ c.toNat = 0x2029
    ∨ c.toNat = 0x202F ∨ c.toNat = 0x205F ∨ c.toNat = 0x3000)

/-- `strings.TrimSpace`: drop whitespace runes from both ends. -/
def trimSpace (l : List Char) : List Char :=
  ((l.dropWhile goIsSpace).reverse.dropWhile goIsSpace).reverse

/-- The UTF-8 bytes of one scalar value. -/
def utf8Bytes (c : Char) : List Nat :=
  let n := c.toNat
  if n < 0x80 then [n]
  else if n < 0x800 then [0xC0 + n / 0x40, 0x80 + n % 0x40]
  else if n < 0x10000 then [0xE0 + n / 0x1000, 0x80 + n / 0x40 % 0x40, 0x80 + n % 0x40]
  else [0xF0 + n / 0x40000, 0x80 + n / 0x1000 % 0x40, 0x80 + n / 0x40 % 0x40, 0x80 + n % 0x40]

/-- The UTF-8 encoding of a rune sequence (what Go's `len` and slicing
operate on). -/
def utf8Encode (l : List Char) : List Nat :=
  l.flatMap utf8Bytes

/-- `sanitizeCommitMsg`, translated from the Go source; the result is
the byte string Go returns. -/
def sanitizeCommitMsg (s : String) : List Nat :=
  let kept := s.data.filter (fun c => !goIsControl c)
  let trimmed := trimSpace kept
  let bs := utf8Encode trimmed
  if bs.length > 200 then bs.take 200 else bs

theorem mem_dropWhile (p : Char → Bool) (l : List Char) {a : Char}
    (h : a ∈ l.dropWhile p) : a ∈ l := by
  induction l with
  | nil => simp at h
  | cons b l ih =>
    by_cases hb : p b
    · rw [List.dropWhile_cons, if_pos hb] at h
      exact List.mem_cons_of_mem b (ih h)
    · rw [List.dropWhile_cons, if_neg hb] at h
      exact h

theorem head?_dropWhile (p : Char → Bool) (l : List Char) :
    ∀ c, (l.dropWhile p).head? = some c → p c = false := by
  induction l with
  | nil => intro c h; exact Option.noConfusion h
  | cons b l ih =>
    intro c h
    by_cases hb : p b
    · rw [List.dropWhile_cons, if_pos hb] at h
      exact ih c h
    · rw [List.dropWhile_cons, if_neg hb] at h
      obtain rfl : b = c := by injection h
      simpa using hb

theorem getLast?_dropWhile (p : Char → Bool) (l : List Char)
    (h : l.dropWhile p ≠ []) : (l.dropWhile p).getLast? = l.getLast? := by
  induction l with
  | nil => simp [List.dropWhile] at h
  | cons b l ih =>
    by_cases hb : p b
    · rw [List.dropWhile_cons, if_pos hb] at h ⊢
      have hl : l ≠ [] := by
        intro he
        subst he
        simp [List.dropWhile] at h
      rw [ih h]
      cases l with
      | nil => exact absurd rfl hl
      | cons x xs => rw [List.getLast?_cons_cons]
    · rw [List.dropWhile_cons, if_neg hb]

theorem mem_trimSpace {c : Char} {l : List Char} (h : c ∈ trimSpace l) : c ∈ l := by
  unfold trimSpace at h
  rw [List.mem_reverse] at h
  have h2 := mem_dropWhile goIsSpace _ h
  rw [List.mem_reverse] at h2
  exact mem_dropWhile goIsSpace _ h2

theorem trimSpace_head {l : List Char} {c : Char}
    (h : (trimSpace l).head? = some c) : goIsSpace c = false := by
  unfold trimSpace at h
  rw [List.head?_reverse] at h
  have hne : (l.dropWhile goIsSpace).reverse.dropWhile goIsSpace ≠ [] := by
    intro he
    rw [he] at h
    exact Option.noConfusion h
  rw [getLast?_dropWhile goIsSpace _ hne, List.getLast?_reverse] at h
  exact head?_dropWhile goIsSpace _ c h

theorem trimSpace_getLast {l : List Char} {c : Char}
    (h : (trimSpace l).getLast? = some c) : goIsSpace c = false := by
  unfold trimSpace at h
  rw [List.getLast?_reverse] at h
  exact head?_dropWhile goIsSpace _ c h

theorem utf8Bytes_of_not_control (c : Char) (h : goIsControl c = false) :
    ∀ b ∈ utf8Bytes c, 0x20 ≤ b ∧ b ≠ 0x7F := by
  intro b hb
  simp only [goIsControl, decide_eq_false_iff_not] at h
  push_neg at h
  unfold utf8Bytes at hb
  by_cases h1 : c.toNat < 0x80
  · rw [if_pos h1] at hb
    simp only [List.mem_singleton] at hb
    subst hb
    have := h (by omega)
    omega
  · rw [if_neg h1] at hb
    by_cases h2 : c.toNat < 0x800
    · rw [if_pos h2] at hb
      simp only [List.mem_cons, List.not_mem_nil, or_false] at hb
      rcases hb with hb | hb <;> omega
    · rw [if_neg h2] at hb
      by_cases h3 : c.toNat < 0x10000
      · rw [if_pos h3] at hb
        simp only [List.mem_cons, List.not_mem_nil, or_false] at hb
        rcases hb with hb | hb | hb <;> omega
      · rw [if_neg h3] at hb
        simp only [List.mem_cons, List.not_mem_nil, or_false] at hb
        rcases hb with hb | hb | hb | hb <;> omega

set_option maxRecDepth 8192 in
/-- C9 counterexample: the claim asserts the result never has trailing
whitespace, but when the 200-byte cut lands right after a mid-string
space the returned bytes end with the space byte `0x20` — here on an
input of 199 `x`, one space, and two `y`. -/
theorem sanitizeCommitMsg_trailing_space :
    (sanitizeCommitMsg ⟨List.replicate 199 'x' ++ [' ', 'y', 'y']⟩).getLast? = some 0x20 := by
  decide

set_option maxRecDepth 8192 in
/-- C9 amended: `sanitizeCommitMsg` removes every rune Go reports as a
control character, trims leading and trailing whitespace, then truncates
to 200 bytes by byte index; the result is at most 200 bytes, contains no
control byte, and the trimmed text before truncation starts and ends
with non-whitespace — but the byte cut may leave trailing whitespace
(see the counterexample) or split a multi-byte rune in half, as the
final conjunct shows concretely: a trailing CJK rune loses two of its
three bytes. -/
theorem sanitizeCommitMsg_spec (s : String) :
    (sanitizeCommitMsg s).length ≤ 200
    ∧ sanitizeCommitMsg s
        = (utf8Encode (trimSpace ((s.data).filter (fun c => !goIsControl c)))).take 200
    ∧ (∀ c ∈ trimSpace ((s.data).filter (fun c => !goIsControl c)), goIsControl c = false)
    ∧ (∀ c, (trimSpace ((s.data).filter (fun c => !goIsControl c))).head? = some c →
        goIsSpace c = false)
    ∧ (∀ c, (trimSpace ((s.data).filter (fun c => !goIsControl c))).getLast? = some c →
        goIsSpace c = false)
    ∧ (∀ b ∈ sanitizeCommitMsg s, 0x20 ≤ b ∧ b ≠ 0x7F)
    ∧ sanitizeCommitMsg ⟨List.replicate 199 'x' ++ ['中']⟩
        = utf8Encode (List.replicate 199 'x') ++ [0xE4] := by
  have hmemctl : ∀ c ∈ trimSpace ((s.data).filter (fun c => !goIsControl c)),
      goIsControl c = false := by
    intro c hc
    have h2 := mem_trimSpace hc
    have h3 := List.of_mem_filter h2
    simpa using h3
  have hbytes : ∀ b ∈ sanitizeCommitMsg s, 0x20 ≤ b ∧ b ≠ 0x7F := by
    intro b hb
    unfold sanitizeCommitMsg at hb
    have hb2 : b ∈ utf8Encode (trimSpace ((s.data).filter (fun c => !goIsControl c))) := by
      by_cases hlen : (utf8Encode (trimSpace ((s.data).filter (fun c => !goIsControl c)))).length > 200
      · rw [if_pos hlen] at hb
        exact List.take_subset _ _ hb
      · rw [if_neg hlen] at hb
        exact hb
    rw [utf8Encode, List.mem_flatMap] at hb2
    obtain ⟨c, hc, hbc⟩ := hb2
    exact utf8Bytes_of_not_control c (hmemctl c hc) b hbc
  refine ⟨?_, ?_, hmemctl, fun c h => trimSpace_head h, fun c h => trimSpace_getLast h,
    hbytes, by decide⟩
  · unfold sanitizeCommitMsg
    by_cases hlen : (utf8Encode (trimSpace ((s.data).filter (fun c => !goIsControl c)))).length > 200
    · rw [if_pos hlen]
      simp [List.length_take]
    · rw [if_neg hlen]
      omega
  · unfold sanitizeCommitMsg
    by_cases hlen : (utf8Encode (trimSpace ((s.data).filter (fun c => !goIsControl c)))).length > 200
    · rw [if_pos hlen]
    · rw [if_neg hlen]
      rw [List.take_of_length_le (by omega)]

/-- C9 witness: the amended theorem applied at a concrete input whose
trimmed head is the letter `a`, discharging the head-shape hypothesis. -/
theorem sanitizeCommitMsg_spec_witness :
    ((trimSpace (((" a ").data).filter (fun c => !goIsControl c))).head? = some 'a'
      ∧ goIsSpace 'a' = false)
    ∧ (sanitizeCommitMsg " a ").length ≤ 200 :=
  ⟨⟨by decide, (sanitizeCommitMsg_spec " a ").2.2.2.1 'a' (by decide)⟩,
   (sanitizeCommitMsg_spec " a ").1⟩

/-! ## Auth middleware

Translated from the Go source `auth` in `main.go`: requests for the
exact path `/ideas/ping` bypass authentication; any other request is
forwarded when the `Authorization` header carries a verifying bearer
token, or when the query-param/cookie fallback verifies; otherwise the
middleware answers 401 without invoking the handler.  The two login-SDK
verifiers are abstracted as oracles. -/

/-- What the middleware does with a request. -/
inductive AuthDecision where
  | forwarded : AuthDecision
  | unauthorized : AuthDecision
  deriving DecidableEq

/-- The middleware: `verify` abstracts `login.Verify` on the bearer
token, `handleAuthOk` abstracts a succeeding `login.HandleAuth`
query-param/cookie check, `authz` is the `Authorization` header value
(empty when absent, as Go's `Header.Get` returns). -/
def auth (verify : String → Bool) (handleAuthOk : Bool)
    (path : String) (authz : String) : AuthDecision :=
  if path = "/ideas/ping" then AuthDecision.forwarded
  else if authz.startsWith "Bearer " && verify (authz.drop 7) then AuthDecision.forwarded
  else if handleAuthOk then AuthDecision.forwarded
  else AuthDecision.unauthorized

/-- C10: the middleware forwards every request whose path is exactly
`/ideas/ping` regardless of any credential state; for every other path
it forwards exactly when the bearer token verifies or the
query-param/cookie verification succeeds, and otherwise answers
unauthorized without reaching the handler. -/
theorem auth_spec (verify : String → Bool) (handleAuthOk : Bool) (path authz : String) :
    auth verify handleAuthOk "/ideas/ping" authz = AuthDecision.forwarded
    ∧ (path ≠ "/ideas/ping" →
        (auth verify handleAuthOk path authz = AuthDecision.forwarded ↔
          (authz.startsWith "Bearer " && verify (authz.drop 7)) = true ∨ handleAuthOk = true))
    ∧ (path ≠ "/ideas/ping" →
        (authz.startsWith "Bearer " && verify (authz.drop 7)) = false → handleAuthOk = false →
        auth verify handleAuthOk path authz = AuthDecision.unauthorized) := by
  refine ⟨by simp [auth], ?_, ?_⟩
  · intro hp
    unfold auth
    rw [if_neg hp]
    by_cases h1 : (authz.startsWith "Bearer " && verify (authz.drop 7)) = true
    · simp [h1]
    · rw [Bool.not_eq_true] at h1
      by_cases h2 : handleAuthOk <;> simp [h1, h2]
  · intro hp h1 h2
    unfold auth
    rw [if_neg hp, h1, if_neg (by simp), h2, if_neg (by simp)]

/-- C10 witness: concrete decisions — the ping path is forwarded with no
working credentials, and another path with no credentials is refused. -/
theorem auth_spec_witness :
    auth (fun _ => false) false "/ideas/ping" "" = AuthDecision.forwarded
    ∧ auth (fun _ => false) false "/ideas/post" "" = AuthDecision.unauthorized :=
  ⟨(auth_spec (fun _ => false) false "/ideas/post" "").1,
   (auth_spec (fun _ => false) false "/ideas/post" "").2.2 (by decide) (by decide) rfl⟩
